import Mathlib

/-!
Verification of the Reconciliation & Health-Sync Engine of the dev-portal
repository (Python sources under `src/`), via a shallow embedding in Lean.

Document-store collections are modelled as Lean lists of records; MongoDB
`replace_one(filter, doc, upsert=True)` is modelled as replacing the first
matching record (or appending when no record matches), `find_one` as taking
the first matching record, `insert_one` as appending, `delete_one` as
removing the first matching record.  Python exceptions are modelled with
`Except`/`Option`; `try/except` blocks become explicit `match`es on those
values.  Fields of the source records that no modelled code path reads are
omitted; optional dictionary fields read through `dict.get(key, default)`
are modelled as `Option` fields read through `Option.getD`.
-/

set_option autoImplicit false
set_option maxRecDepth 8000

namespace DevPortal

/-! ## Generic document-store primitives -/

/-- MongoDB `collection.replace_one(filter, doc, upsert=True)` on a list store:
replace the first record matching the filter; append the document when none
matches. -/
def replaceOneUpsert {α : Type} : List α → (α → Bool) → α → List α
  | [], _, doc => [doc]
  | d :: ds, m, doc => if m d then doc :: ds else d :: replaceOneUpsert ds m doc

/-- MongoDB `collection.delete_one(filter)` on a list store: remove the first
record matching the filter. -/
def deleteOne {α : Type} : List α → (α → Bool) → List α
  | [], _ => []
  | d :: ds, m => if m d then ds else d :: deleteOne ds m

/-! ## Health evaluator (`src/data_sync_service.py`) -/

/-- `DataSyncService._determine_overall_health` (src/data_sync_service.py:434-441),
transcribed clause for clause.  Python list membership `in [..]` becomes a
disjunction of equalities. -/
def determineOverallHealth (k8s_status argocd_status : String) : String :=
  if k8s_status = "running" ∧ argocd_status = "Healthy" then
    "healthy"
  else if k8s_status = "deploying" ∨ k8s_status = "unknown"
      ∨ argocd_status = "Progressing" ∨ argocd_status = "Unknown" then
    "unknown"
  else
    "unhealthy"

/-- The `data.status` fields of a stored Deployment document that
`_get_k8s_service_status` reads via `status.get("readyReplicas", 0)` /
`status.get("replicas", 0)`; missing fields are `none`. -/
structure DeploymentStatus where
  readyReplicas : Option Nat
  replicas : Option Nat
deriving Repr, DecidableEq

/-- A document of the `devportal.k8s_resources` collection
(`K8sResourceDocument`), restricted to the fields the modelled code reads.
`nspace` is the source's `namespace` field (a Lean keyword).
`data_status` is the `data.status` payload consulted by the health logic. -/
structure K8sResourceDoc where
  resource_type : String
  name : String
  nspace : String
  uid : String
  data_status : DeploymentStatus
  sync_status : String
deriving Repr, DecidableEq

/-- The `find_one({"name": .., "namespace": .., "resource_type": "Deployment"})`
lookup inside `_get_k8s_service_status`. -/
def findDeployment (store : List K8sResourceDoc) (service_name nspace : String) :
    Option K8sResourceDoc :=
  store.find? fun d =>
    d.name == service_name && d.nspace == nspace && d.resource_type == "Deployment"

/-- `DataSyncService._get_k8s_service_status` (src/data_sync_service.py:390-416).
The store stands for the `k8s_resources` collection.  The outer `try/except`
only guards store connectivity, which the pure model cannot fail. -/
def getK8sServiceStatus (store : List K8sResourceDoc) (service_name nspace : String) :
    String :=
  match findDeployment store service_name nspace with
  | none => "unknown"
  | some deployment =>
    let ready_replicas := deployment.data_status.readyReplicas.getD 0
    let replicas := deployment.data_status.replicas.getD 0
    if ready_replicas = replicas ∧ replicas > 0 then "running"
    else if ready_replicas > 0 then "deploying"
    else "failed"

/-! ## String containment (the `$regex .*name.*` with `$options: "i"` lookup) -/

/-- `needle` occurs at the front of `hay` (character lists). -/
def matchesFront : List Char → List Char → Bool
  | [], _ => true
  | _ :: _, [] => false
  | a :: as, b :: bs => a == b && matchesFront as bs

/-- `needle` occurs somewhere inside `hay` (character lists). -/
def containsSub (needle : List Char) : List Char → Bool
  | [] => matchesFront needle []
  | b :: bs => matchesFront needle (b :: bs) || containsSub needle bs

/-- Case-insensitive substring test: the semantics of the MongoDB filter
`{"name": {"$regex": ".*<service_name>.*", "$options": "i"}}` for a
metacharacter-free `service_name`. -/
def strContainsCI (hay needle : String) : Bool :=
  containsSub needle.toLower.toList hay.toLower.toList

/-- A document of the `devportal.argocd_applications` collection
(`ArgoCDApplicationDocument`), restricted to the fields the modelled code
reads; `health` is the `data.status.health` payload field. -/
structure ArgoAppDoc where
  name : String
  nspace : String
  uid : String
  health : String
  sync_status : String
deriving Repr, DecidableEq

/-- `DataSyncService._get_argocd_service_status` (src/data_sync_service.py:418-432):
`find_one` with a case-insensitive name-containment regex, reading
`data.status.health`, `"unknown"` when no application matches. -/
def getArgocdServiceStatus (apps : List ArgoAppDoc) (service_name : String) : String :=
  match apps.find? (fun a => strContainsCI a.name service_name) with
  | none => "unknown"
  | some app => app.health

/-! ## Service records and the health pass (`_update_service_health`) -/

/-- A document of the `devportal.services` collection, restricted to the
fields the modelled code reads.  `service["service_name"]` and
`service["namespace"]` are plain dictionary subscripts in the source, so a
document may lack them (`none`), in which case the subscript raises
`KeyError`. -/
structure ServiceDoc where
  service_name : Option String
  nspace : Option String
  docker_image : String
  replicas : Nat
  discovered_from_k8s : Bool
deriving Repr, DecidableEq

/-- A document of the `devportal.service_health` collection, restricted to
the fields the modelled code writes and the claims read. -/
structure ServiceHealthDoc where
  service_name : String
  nspace : String
  overall_status : String
  k8s_status : String
  argocd_status : String
deriving Repr, DecidableEq

/-- `DataSyncService._update_service_health` (src/data_sync_service.py:337-388).
One `try/except` wraps the whole `for service in services:` loop: an
exception in the loop body (here: a `KeyError` from `service["service_name"]`
or `service["namespace"]`) propagates to that single handler, which logs and
returns, abandoning the remaining services; the health records written so
far persist.  The status lookups (`getK8sServiceStatus`,
`getArgocdServiceStatus`) catch their own errors internally and are total
here. -/
def updateServiceHealth (k8sStore : List K8sResourceDoc) (argoStore : List ArgoAppDoc)
    (healthStore : List ServiceHealthDoc) : List ServiceDoc → List ServiceHealthDoc
  | [] => healthStore
  | service :: rest =>
    match service.service_name, service.nspace with
    | some service_name, some nspace =>
      let k8s_status := getK8sServiceStatus k8sStore service_name nspace
      let argocd_status := getArgocdServiceStatus argoStore service_name
      let overall_status := determineOverallHealth k8s_status argocd_status
      let doc : ServiceHealthDoc :=
        ⟨service_name, nspace, overall_status, k8s_status, argocd_status⟩
      updateServiceHealth k8sStore argoStore
        (replaceOneUpsert healthStore
          (fun h => h.service_name == service_name && h.nspace == nspace) doc)
        rest
    | _, _ => healthStore

/-! ## Service discovery (`src/service_discovery.py`) -/

/-- A container of a Deployment's pod template; `image` is read through
`main_container.get("image", "unknown")`, so it may be missing. -/
structure ContainerSpec where
  image : Option String
deriving Repr, DecidableEq

/-- The fields of a fetched Deployment (`K8sResourceData`) that
`ServiceDiscovery` reads: metadata name/namespace, the pod-template
containers, and `spec.get("replicas", 1)`. -/
structure DeploymentData where
  name : String
  nspace : String
  containers : List ContainerSpec
  replicas : Option Nat
deriving Repr, DecidableEq

/-- `ServiceDiscovery._create_service_metadata` (src/service_discovery.py:70-147),
restricted to the modelled fields: `none` when the pod template has no
containers, otherwise a record derived from the first container. -/
def createServiceMetadata (d : DeploymentData) : Option ServiceDoc :=
  match d.containers with
  | [] => none
  | main_container :: _ =>
    some { service_name := some d.name
           nspace := some d.nspace
           docker_image := main_container.image.getD "unknown"
           replicas := d.replicas.getD 1
           discovered_from_k8s := true }

/-- The `find_one({"service_name": n, "namespace": ns})` existence check of
`discover_existing_services`, as a Boolean. -/
def hasServiceKey (store : List ServiceDoc) (n ns : String) : Bool :=
  store.any fun s => s.service_name == some n && s.nspace == some ns

/-- One iteration of the `for deployment in deployments:` loop of
`ServiceDiscovery.discover_existing_services` (src/service_discovery.py:25-68):
skip when a service record for `(name, namespace)` already exists, skip when
no metadata can be synthesized (no containers), otherwise `insert_one` the
synthesized record.  The loop body's `try/except continue` gives per-item
isolation; the only modelled per-item failure is the container-less case,
which the source also skips. -/
def discoverStep (store : List ServiceDoc) (d : DeploymentData) : List ServiceDoc :=
  if hasServiceKey store d.name d.nspace then store
  else
    match createServiceMetadata d with
    | none => store
    | some service_metadata => store ++ [service_metadata]

/-- `ServiceDiscovery.discover_existing_services`: the whole pass over the
fetched Deployment list, acting on the `devportal.services` collection. -/
def discoverExistingServices (store : List ServiceDoc) (deployments : List DeploymentData) :
    List ServiceDoc :=
  deployments.foldl discoverStep store

/-- Number of service records with identity `(n, ns)` in the store. -/
def countServiceKey (store : List ServiceDoc) (n ns : String) : Nat :=
  store.countP fun s => s.service_name == some n && s.nspace == some ns

/-! ## Sync-job bookkeeping (`src/data_sync_service.py`, `full_sync` /
`incremental_sync`) -/

/-- A document of the `devportal.sync_jobs` collection (`SyncJobDocument`),
restricted to the fields the modelled code writes.  Timestamps are not
modelled. -/
structure SyncJobDoc where
  job_id : String
  job_type : String
  status : String
  last_error : Option String
deriving Repr, DecidableEq

/-- MongoDB `insert_one` on a list store: append. -/
def insertOne {α : Type} (store : List α) (doc : α) : List α := store ++ [doc]

/-- The `sync_jobs.update_one({"job_id": job_id}, {"$set": {...}})` calls of
`full_sync`/`incremental_sync`: update the first record with the given
`job_id`, setting `status`, and `last_error` only when a message is given
(the `$set` of the completion path does not touch `last_error`). -/
def updateJobStatus : List SyncJobDoc → String → String → Option String → List SyncJobDoc
  | [], _, _, _ => []
  | d :: ds, job_id, status, err =>
    if d.job_id == job_id then
      { d with status := status,
               last_error := match err with | some e => some e | none => d.last_error } :: ds
    else d :: updateJobStatus ds job_id status err

/-- The first exception escaping the sequence of awaited sub-steps of a sync
run's `try` block, if any.  (In the current composition every sub-step
catches its own errors, so every entry is `.ok`; the orchestrator's
`try/except` structure is modelled for arbitrary step outcomes.) -/
def firstStepError : List (Except String Unit) → Option String
  | [] => none
  | .ok _ :: rest => firstStepError rest
  | .error e :: _ => some e

/-- The sync-job bookkeeping shared by `DataSyncService.full_sync`
(src/data_sync_service.py:75-129) and `incremental_sync` (131-179): insert a
`running` job record, run the sub-steps, then update the job once to
`completed`, or to `failed` with the escaped exception's message. -/
def runSyncJob (store : List SyncJobDoc) (job_id job_type : String)
    (steps : List (Except String Unit)) : List SyncJobDoc :=
  let store1 := insertOne store ⟨job_id, job_type, "running", none⟩
  match firstStepError steps with
  | none => updateJobStatus store1 job_id "completed" none
  | some e => updateJobStatus store1 job_id "failed" (some e)

/-- `DataSyncService.full_sync`'s effect on the `sync_jobs` collection. -/
def fullSyncJob (store : List SyncJobDoc) (job_id : String)
    (steps : List (Except String Unit)) : List SyncJobDoc :=
  runSyncJob store job_id "full_sync" steps

/-- `DataSyncService.incremental_sync`'s effect on the `sync_jobs`
collection. -/
def incrementalSyncJob (store : List SyncJobDoc) (job_id : String)
    (steps : List (Except String Unit)) : List SyncJobDoc :=
  runSyncJob store job_id "incremental_sync" steps

/-- The sequence of statuses a sync run writes to its job record, in order:
`"running"` at insertion, then the single terminal update. -/
def runSyncJobTrace (steps : List (Except String Unit)) : List String :=
  ["running", match firstStepError steps with | none => "completed" | some _ => "failed"]

/-! ## Saving fetched records (`_save_k8s_resources`,
`_sync_argocd_applications`) -/

/-- The fields of a fetched K8s resource (`K8sResourceData`) that
`_save_k8s_resources` copies into the stored document. -/
structure K8sResourceData where
  kind : String
  name : String
  nspace : String
  uid : String
  status : DeploymentStatus
deriving Repr, DecidableEq

/-- The `K8sResourceDocument` built by `_save_k8s_resources`
(src/data_sync_service.py:277-298) from a fetched resource. -/
def mkK8sResourceDoc (r : K8sResourceData) : K8sResourceDoc :=
  { resource_type := r.kind, name := r.name, nspace := r.nspace, uid := r.uid,
    data_status := r.status, sync_status := "synced" }

/-- One iteration of `_save_k8s_resources`:
`replace_one({"uid": resource.metadata.uid}, doc, upsert=True)`. -/
def saveK8sResource (store : List K8sResourceDoc) (r : K8sResourceData) :
    List K8sResourceDoc :=
  replaceOneUpsert store (fun d => d.uid == r.uid) (mkK8sResourceDoc r)

/-- `DataSyncService._save_k8s_resources` over a fetched resource list (the
loop body's `try/except` isolates per-item failures; the modelled body is
total). -/
def saveK8sResources (store : List K8sResourceDoc) (resources : List K8sResourceData) :
    List K8sResourceDoc :=
  resources.foldl saveK8sResource store

/-- The fields of a fetched ArgoCD application (`ArgoCDApplicationData`)
that `_sync_argocd_applications` copies into the stored document. -/
structure ArgoAppData where
  name : String
  nspace : String
  uid : String
  health : String
deriving Repr, DecidableEq

/-- One iteration of `_sync_argocd_applications`
(src/data_sync_service.py:300-326):
`replace_one({"uid": app.uid}, doc, upsert=True)`. -/
def saveArgoApp (store : List ArgoAppDoc) (app : ArgoAppData) : List ArgoAppDoc :=
  replaceOneUpsert store (fun d => d.uid == app.uid)
    { name := app.name, nspace := app.nspace, uid := app.uid,
      health := app.health, sync_status := "synced" }

/-- `DataSyncService._sync_argocd_applications`: upsert every fetched
application by `uid`.  It performs no deletions. -/
def syncArgocdApplications (store : List ArgoAppDoc) (apps : List ArgoAppData) :
    List ArgoAppDoc :=
  apps.foldl saveArgoApp store

/-- The effect of `DataSyncService.full_sync` on the
`argocd_applications` collection: of its five sub-steps only
`_sync_argocd_applications` writes that collection. -/
def fullSyncApplicationsStep (store : List ArgoAppDoc) (apps : List ArgoAppData) :
    List ArgoAppDoc :=
  syncArgocdApplications store apps

/-- The effect of `DataSyncService.incremental_sync` on the
`argocd_applications` collection: `_sync_argocd_applications_incremental`
just delegates to `_sync_argocd_applications`. -/
def incrementalSyncApplicationsStep (store : List ArgoAppDoc) (apps : List ArgoAppData) :
    List ArgoAppDoc :=
  syncArgocdApplications store apps

/-! ## `MongoDBClient` and `ArgoCDDataFetcher`
(`src/mongodb_client.py`, `src/argo_data_fetcher.py`) -/

/-- A document of the fetcher-side `applications` collection, restricted to
the identity key and one payload field (the collection has a unique index on
`name`). -/
structure MongoAppDoc where
  name : String
  healthStatus : String
deriving Repr, DecidableEq

/-- `MongoDBClient.upsert_application` (src/mongodb_client.py:61-100):
refuse documents without a name, otherwise
`replace_one({"name": name}, doc, upsert=True)`; returns the success flag
and the new store.  Timestamp stamping and connectivity failures are not
modelled. -/
def upsertApplication (store : List MongoAppDoc) (app_data : MongoAppDoc) :
    Bool × List MongoAppDoc :=
  if app_data.name = "" then (false, store)
  else (true, replaceOneUpsert store (fun d => d.name == app_data.name) app_data)

/-- `MongoDBClient.delete_application`: `delete_one({"name": name})`. -/
def deleteApplication (store : List MongoAppDoc) (name : String) : List MongoAppDoc :=
  deleteOne store (fun d => d.name == name)

/-- A raw application from the ArgoCD API pull
(`get_argocd_applications`): `metaName` is `metadata.get('name')` (missing
key gives `none`), `health` is `status.health.status`. -/
structure FetchedApp where
  metaName : Option String
  health : Option String
deriving Repr, DecidableEq

/-- `ArgoCDDataFetcher.transform_argocd_app_to_mongodb`
(src/argo_data_fetcher.py:75-190), restricted to the modelled fields:
`name` from `metadata.get('name', '')`, `healthStatus` from
`status.get('health', {}).get('status', 'Unknown')`. -/
def transformArgocdApp (a : FetchedApp) : MongoAppDoc :=
  { name := a.metaName.getD "", healthStatus := a.health.getD "Unknown" }

/-- `ArgoCDDataFetcher.sync_applications_to_mongodb`
(src/argo_data_fetcher.py:266-310).  An empty pull returns `False` at once,
touching nothing.  Otherwise: delete every stored application whose name is
not in the pull's `metadata.name` set (skipping falsy names, per
`if name:`), then transform-and-upsert each pulled application with a
non-empty name, returning whether at least one upsert succeeded.  The
Python set difference is modelled as a deduplicated filtered name list;
since deletion is by name, the set's iteration order is immaterial. -/
def fetcherSyncApplications (argocd_apps : List FetchedApp) (store : List MongoAppDoc) :
    Bool × List MongoAppDoc :=
  if argocd_apps.isEmpty then (false, store)
  else
    let argocd_names : List (Option String) := argocd_apps.map (·.metaName)
    let current_names : List String := (store.map (·.name)).dedup
    let to_delete := current_names.filter fun n => ! argocd_names.contains (some n)
    let store1 := to_delete.foldl
      (fun st n => if n = "" then st else deleteApplication st n) store
    let upserted := argocd_apps.foldl
      (fun (acc : Nat × List MongoAppDoc) app =>
        let mongodb_doc := transformArgocdApp app
        if mongodb_doc.name = "" then acc
        else
          let (success, st) := upsertApplication acc.2 mongodb_doc
          (if success then acc.1 + 1 else acc.1, st))
      (0, store1)
    (upserted.1 > 0, upserted.2)

/-! ## GitHub webhook handler (`src/github_webhook_handler.py`) -/

/-- Case-sensitive substring test (Python's `needle in hay`). -/
def strContains (hay needle : String) : Bool :=
  containsSub needle.toList hay.toList

/-- `GitHubWebhookHandler.verify_webhook_signature`
(src/github_webhook_handler.py:49-61).  `hmacHex secret payload` stands for
`hmac.new(secret, payload, sha256).hexdigest()`, kept abstract: the claims
depend only on whether the supplied signature equals
`"sha256=" ++ hmacHex secret payload`.  `hmac.compare_digest` is
constant-time string equality.  A `none` or empty secret is falsy in
Python's `if not self.webhook_secret`, so verification is skipped. -/
def verifyWebhookSignature (hmacHex : String → String → String)
    (webhook_secret : Option String) (payload signature : String) : Bool :=
  match webhook_secret with
  | none => true
  | some secret =>
    if secret = "" then true
    else signature == "sha256=" ++ hmacHex secret payload

/-- One commit of a GitHub push payload: the `added` and `modified` file
lists. -/
structure PushCommit where
  added : List String
  modified : List String
deriving Repr, DecidableEq

/-- The parts of a GitHub push payload that `handle_push_event` reads:
`repository.clone_url` (`''` when missing, per the chained `.get`s) and the
commit list. -/
structure PushPayload where
  clone_url : String
  commits : List PushCommit
deriving Repr, DecidableEq

/-- The concatenated `added + modified` file lists of all commits, in loop
order. -/
def pushChangedFiles (payload : PushPayload) : List String :=
  payload.commits.foldl (fun acc c => acc ++ (c.added ++ c.modified)) []

/-- The `new_apps` accumulation of `handle_push_event`: for each changed
file under `apps/`, the second path component is appended if not already
collected.  (`str.split('/')` on a string starting with `"apps/"` always
has at least two parts.) -/
def collectNewApps (files : List String) : List String :=
  files.foldl
    (fun new_apps file_path =>
      if file_path.startsWith "apps/" then
        match file_path.splitOn "/" with
        | _ :: app_name :: _ =>
          if new_apps.contains app_name then new_apps else new_apps ++ [app_name]
        | _ => new_apps
      else new_apps)
    []

/-- `GitHubWebhookHandler.handle_push_event`
(src/github_webhook_handler.py:113-161).  Result: the returned Boolean and
the list of application names for which `trigger_argocd_sync` is invoked
(empty = no sync triggered).  Events for other repositories, and pushes
touching no `apps/` path, trigger nothing. -/
def handlePushEvent (payload : PushPayload) : Bool × List String :=
  if ¬ strContains payload.clone_url "repository_b_ci_cd_fpt_repob_devops" then
    (false, [])
  else
    let files := pushChangedFiles payload
    let apps_changed := files.any fun f => f.startsWith "apps/"
    let new_apps := collectNewApps files
    if apps_changed then (true, new_apps) else (false, [])

/-- An exception raised inside `handle_webhook`'s `try` block. -/
inductive WebhookExc where
  | httpExc (status : Nat) (detail : String)
  | jsonDecodeError
deriving Repr, DecidableEq

/-- The JSON body returned by `handle_webhook` on the non-raising paths. -/
structure WebhookResponse where
  status : String
  message : String
deriving Repr, DecidableEq

/-- The raw webhook request body: the bytes that are signed, together with
the result of `json.loads` on them (`none` = `JSONDecodeError`). -/
structure RawPayload where
  bytes : String
  parsed : Option PushPayload
deriving Repr, DecidableEq

/-- `GitHubWebhookHandler.handle_webhook`
(src/github_webhook_handler.py:163-196).  `.error (st, detail)` is a raised
`HTTPException(status_code := st, detail := detail)`; `.ok (resp, synced)`
is a normal return with the list of applications synced.  The `try` body
raises `HTTPException(401)` on signature mismatch; the handlers are
`except json.JSONDecodeError` (re-raise as 400) and `except Exception`
(re-raise as `HTTPException(500, str(e))`) — and since `HTTPException` is an
`Exception`, the 401 raised in the `try` block is caught there and
re-surfaced as a 500 whose detail is `str(e)`, i.e.
`"<status>: <detail>"`. -/
def handleWebhook (hmacHex : String → String → String)
    (webhook_secret : Option String) (event_type : String)
    (payload : RawPayload) (signature : Option String) :
    Except (Nat × String) (WebhookResponse × List String) :=
  let body : Except WebhookExc (WebhookResponse × List String) :=
    if ¬ verifyWebhookSignature hmacHex webhook_secret payload.bytes (signature.getD "") then
      .error (.httpExc 401 "Invalid webhook signature")
    else
      match payload.parsed with
      | none => .error .jsonDecodeError
      | some data =>
        if event_type = "push" then
          let (success, synced) := handlePushEvent data
          .ok ({ status := if success then "success" else "ignored",
                 message := if success then "Push event processed"
                            else "No relevant changes" }, synced)
        else if event_type = "ping" then
          .ok ({ status := "success", message := "Webhook ping received" }, [])
        else
          .ok ({ status := "ignored",
                 message := "Event type " ++ event_type ++ " not handled" }, [])
  match body with
  | .ok r => .ok r
  | .error .jsonDecodeError => .error (400, "Invalid JSON payload")
  | .error (.httpExc st detail) => .error (500, toString st ++ ": " ++ detail)

/-! ## Cluster readers (`src/k8s_client.py`) -/

/-- JSON values, as produced by `json.loads` on CLI output. -/
inductive Json where
  | null
  | bool (b : Bool)
  | num (n : Int)
  | str (s : String)
  | arr (elems : List Json)
  | obj (fields : List (String × Json))

/-- Python `d.get(key, default)`: `AttributeError` on a non-dict receiver. -/
def jsonGetD (j : Json) (key : String) (dflt : Json) : Except String Json :=
  match j with
  | .obj fields => .ok ((List.lookup key fields).getD dflt)
  | _ => .error "AttributeError"

/-- Python `d[key]`: `KeyError` when the key is absent, `TypeError` on a
non-dict receiver. -/
def jsonIndex (j : Json) (key : String) : Except String Json :=
  match j with
  | .obj fields =>
    match List.lookup key fields with
    | some v => .ok v
    | none => .error "KeyError"
  | _ => .error "TypeError"

/-- A value assigned to a `str`-typed pydantic model field: anything else
raises a validation error. -/
def jsonAsStr (j : Json) : Except String String :=
  match j with
  | .str s => .ok s
  | _ => .error "ValidationError"

/-- Python iteration `for x in j`: elements of a list, keys of a dict,
characters of a string; `TypeError` otherwise. -/
def jsonIter (j : Json) : Except String (List Json) :=
  match j with
  | .arr elems => .ok elems
  | .obj fields => .ok (fields.map fun f => Json.str f.1)
  | .str s => .ok (s.data.map fun c => Json.str (String.mk [c]))
  | _ => .error "TypeError"

/-- The fate of one CLI invocation: the subprocess machinery raised, or the
process exited with a code and (when the output parsed as JSON) a value —
`stdout = none` models unparseable output, where `json.loads` raises. -/
inductive CmdOutcome where
  | raises (msg : String)
  | exits (returncode : Int) (stdout : Option Json)

/-- `K8sClient._run_kubectl` (src/k8s_client.py:29-47): `{}` when the
subprocess raises, `{}` on a non-zero exit code, `{}` when `json.loads`
raises, otherwise the parsed JSON. -/
def runKubectl (outcome : CmdOutcome) : Json :=
  match outcome with
  | .raises _ => .obj []
  | .exits returncode stdout =>
    if returncode ≠ 0 then .obj []
    else
      match stdout with
      | none => .obj []
      | some j => j

/-- `ArgoCDClient._run_argocd` (src/k8s_client.py:335-353): same failure
behaviour as `_run_kubectl`. -/
def runArgocd (outcome : CmdOutcome) : Json :=
  match outcome with
  | .raises _ => .obj []
  | .exits returncode stdout =>
    if returncode ≠ 0 then .obj []
    else
      match stdout with
      | none => .obj []
      | some j => j

/-- A parsed namespace record (`K8sNamespaceData`), restricted to the
required fields; `labels`/`annotations` are read with non-raising `.get`
defaults and are omitted. -/
structure NamespaceData where
  name : String
  uid : String
  status : String
deriving Repr, DecidableEq

/-- The per-item body of `K8sClient.get_namespaces`: any raise here aborts
the whole listing (the `try` wraps the loop) — modelled by the `Except`. -/
def parseNamespaceItem (ns : Json) : Except String NamespaceData := do
  let metadata ← jsonIndex ns "metadata"
  let phase ← jsonIndex (← jsonIndex ns "status") "phase"
  let name ← jsonAsStr (← jsonIndex metadata "name")
  let uid ← jsonAsStr (← jsonIndex metadata "uid")
  let status ← jsonAsStr phase
  pure { name := name, uid := uid, status := status }

/-- `K8sClient.get_namespaces` (src/k8s_client.py:88-110): list the items of
the kubectl output, returning `[]` when anything in the `try` body raises. -/
def getNamespaces (outcome : CmdOutcome) : List NamespaceData :=
  match (do
    let namespaces := runKubectl outcome
    let items ← jsonGetD namespaces "items" (.arr [])
    let xs ← jsonIter items
    xs.mapM parseNamespaceItem) with
  | .ok result => result
  | .error _ => []

/-- A parsed cluster resource (`K8sResourceData` with its
`K8sResourceMetadata`).  `creation_timestamp` keeps the raw string: the
source's `datetime.fromisoformat` validation is not modelled (a malformed
string is one more way for the source to raise into the same catch-all that
returns `[]`). -/
structure K8sResourceParsed where
  kind : String
  api_version : String
  name : String
  nspace : String
  uid : String
  resource_version : String
  creation_timestamp : String
  spec : Json
  status : Json

/-- The shared per-item body of `get_pods`/`get_deployments`/`get_services`/
`get_ingresses`: required `metadata` subscripts, `.get` defaults for
`spec`/`status`. -/
def parseResourceItem (kind : String) (item : Json) : Except String K8sResourceParsed := do
  let metadata ← jsonIndex item "metadata"
  let spec ← jsonGetD item "spec" (.obj [])
  let status ← jsonGetD item "status" (.obj [])
  let name ← jsonAsStr (← jsonIndex metadata "name")
  let nspace ← jsonAsStr (← jsonIndex metadata "namespace")
  let uid ← jsonAsStr (← jsonIndex metadata "uid")
  let resource_version ← jsonAsStr (← jsonIndex metadata "resourceVersion")
  let creation_timestamp ← jsonAsStr (← jsonIndex metadata "creationTimestamp")
  let api_version ← jsonAsStr (← jsonIndex item "apiVersion")
  pure { kind := kind, api_version := api_version, name := name, nspace := nspace,
         uid := uid, resource_version := resource_version,
         creation_timestamp := creation_timestamp, spec := spec, status := status }

/-- `K8sClient.get_pods` (src/k8s_client.py:112-154).  The namespace
argument only selects CLI flags and is absorbed into the outcome. -/
def getPods (outcome : CmdOutcome) : List K8sResourceParsed :=
  match (do
    let pods := runKubectl outcome
    let items ← jsonGetD pods "items" (.arr [])
    let xs ← jsonIter items
    xs.mapM (parseResourceItem "Pod")) with
  | .ok result => result
  | .error _ => []

/-- `K8sClient.get_deployments` (src/k8s_client.py:156-198). -/
def getDeployments (outcome : CmdOutcome) : List K8sResourceParsed :=
  match (do
    let deployments := runKubectl outcome
    let items ← jsonGetD deployments "items" (.arr [])
    let xs ← jsonIter items
    xs.mapM (parseResourceItem "Deployment")) with
  | .ok result => result
  | .error _ => []

/-- `K8sClient.get_services` (src/k8s_client.py:200-242). -/
def getServices (outcome : CmdOutcome) : List K8sResourceParsed :=
  match (do
    let services := runKubectl outcome
    let items ← jsonGetD services "items" (.arr [])
    let xs ← jsonIter items
    xs.mapM (parseResourceItem "Service")) with
  | .ok result => result
  | .error _ => []

/-- `K8sClient.get_ingresses` (src/k8s_client.py:244-286). -/
def getIngresses (outcome : CmdOutcome) : List K8sResourceParsed :=
  match (do
    let ingresses := runKubectl outcome
    let items ← jsonGetD ingresses "items" (.arr [])
    let xs ← jsonIter items
    xs.mapM (parseResourceItem "Ingress")) with
  | .ok result => result
  | .error _ => []

/-- A parsed ArgoCD application (`ArgoCDApplicationData`), restricted to
the identity and status fields; the `spec` sub-record is read entirely
through `.get` defaults and is omitted. -/
structure ArgoAppParsed where
  name : String
  nspace : String
  uid : String
  health : String
  sync : String
deriving Repr, DecidableEq

/-- The per-item body of `ArgoCDClient.get_applications`: read the list
entry's name/namespace, fetch the per-app details with a second CLI call,
and extract the status fields through `.get` chains. -/
def parseArgoApp (details : String → CmdOutcome) (app : Json) :
    Except String ArgoAppParsed := do
  let name ← jsonAsStr (← jsonGetD app "name" (.str ""))
  let nspace ← jsonAsStr (← jsonGetD app "namespace" (.str "argocd"))
  let app_details := runArgocd (details name)
  let statusObj ← jsonGetD app_details "status" (.obj [])
  let health ← jsonAsStr (← jsonGetD (← jsonGetD statusObj "health" (.obj []))
    "status" (.str "Unknown"))
  let sync ← jsonAsStr (← jsonGetD (← jsonGetD statusObj "sync" (.obj []))
    "status" (.str "Unknown"))
  let uid ← jsonAsStr (← jsonGetD (← jsonGetD app_details "metadata" (.obj []))
    "uid" (.str ""))
  pure { name := name, nspace := nspace, uid := uid, health := health, sync := sync }

/-- `ArgoCDClient.get_applications` (src/k8s_client.py:355-398):
`argocd app list`, then one `argocd app get` per listed application;
anything raising in the `try` body yields `[]`.  A failed list call yields
`{}`, whose (key) iteration is empty, so the result is `[]` as well. -/
def getApplications (list_outcome : CmdOutcome) (details : String → CmdOutcome) :
    List ArgoAppParsed :=
  match (do
    let apps := runArgocd list_outcome
    let xs ← jsonIter apps
    xs.mapM (parseArgoApp details)) with
  | .ok result => result
  | .error _ => []

/-! ## Concrete fixtures used by closed theorems -/

/-- Stored ArgoCD application documents {A, B, C} (spec §8's prior set). -/
def storeABC : List ArgoAppDoc :=
  [⟨"A", "argocd", "uid-a", "Healthy", "synced"⟩,
   ⟨"B", "argocd", "uid-b", "Healthy", "synced"⟩,
   ⟨"C", "argocd", "uid-c", "Healthy", "synced"⟩]

/-- A fresh pull returning only {A, C}. -/
def pullAC : List ArgoAppData :=
  [⟨"A", "argocd", "uid-a", "Healthy"⟩, ⟨"C", "argocd", "uid-c", "Healthy"⟩]

/-- The fetcher-side stored set {A, B, C}. -/
def mongoStoreABC : List MongoAppDoc :=
  [⟨"A", "Healthy"⟩, ⟨"B", "Healthy"⟩, ⟨"C", "Healthy"⟩]

/-- The fetcher-side fresh pull {A, C}. -/
def fetchedAC : List FetchedApp :=
  [⟨some "A", some "Healthy"⟩, ⟨some "C", some "Healthy"⟩]

/-- A push payload for the manifests repository touching one `apps/`
directory. -/
def samplePushPayload : PushPayload :=
  { clone_url := "https://github.com/x/repository_b_ci_cd_fpt_repob_devops.git",
    commits := [⟨["apps/orders-app/deployment.yaml"], []⟩] }

/-- A concrete stand-in for the abstract HMAC hexdigest, used only to
instantiate closed theorems. -/
def sampleHmacHex : String → String → String :=
  fun secret payload => secret ++ "." ++ payload

/-- A malformed service document: its `namespace` key is missing, so
`service["namespace"]` raises `KeyError` during the health pass. -/
def badService : ServiceDoc := ⟨some "broken", none, "img", 1, true⟩

/-- A well-formed service document. -/
def goodService : ServiceDoc := ⟨some "orders", some "prod", "img", 1, true⟩

/-- A concrete fetched Deployment resource. -/
def sampleRes : K8sResourceData := ⟨"Deployment", "orders", "prod", "uid-1", ⟨some 2, some 2⟩⟩

/-- A concrete fetcher-side application document. -/
def sampleMongoDoc : MongoAppDoc := ⟨"orders-app", "Healthy"⟩

/-- A concrete Deployment as seen by service discovery. -/
def sampleDeployment : DeploymentData := ⟨"orders", "prod", [⟨some "img:1"⟩], some 2⟩

end DevPortal

namespace DevPortal

/-! # Theorems -/

/-- C1: `_determine_overall_health` returns `"healthy"` iff the k8s status is
`"running"` and the GitOps status is `"Healthy"`; `"unknown"` iff not healthy
and the k8s status is `"deploying"`/`"unknown"` or the GitOps status is
`"Progressing"`/`"Unknown"`; and `"unhealthy"` in every other case.  In
particular `("deploying", "Healthy")` yields `"unknown"`, never
`"unhealthy"`. -/
theorem overall_health_verdict_characterization (k a : String) :
    (determineOverallHealth k a = "healthy" ↔ k = "running" ∧ a = "Healthy")
    ∧ (determineOverallHealth k a = "unknown" ↔
        ¬(k = "running" ∧ a = "Healthy")
        ∧ (k = "deploying" ∨ k = "unknown" ∨ a = "Progressing" ∨ a = "Unknown"))
    ∧ (determineOverallHealth k a = "unhealthy" ↔
        ¬(k = "running" ∧ a = "Healthy")
        ∧ ¬(k = "deploying" ∨ k = "unknown" ∨ a = "Progressing" ∨ a = "Unknown"))
    ∧ determineOverallHealth "deploying" "Healthy" = "unknown" := by
  refine ⟨?_, ?_, ?_, by decide⟩ <;>
    · unfold determineOverallHealth
      split_ifs with h1 h2 <;> simp_all

/-- C4: the k8s-derived service status is computed from the first stored
Deployment record matching `(name, namespace)`: `"running"` when
`readyReplicas = replicas > 0`, `"deploying"` when
`0 < readyReplicas < replicas`, `"failed"` when `readyReplicas = 0`, and
`"unknown"` when no matching Deployment record exists; missing status
fields default to `0`. -/
theorem k8s_service_status_classification (store : List K8sResourceDoc)
    (n ns : String) :
    (findDeployment store n ns = none → getK8sServiceStatus store n ns = "unknown")
    ∧ ∀ d, findDeployment store n ns = some d →
        (d.data_status.readyReplicas.getD 0 = d.data_status.replicas.getD 0
            ∧ 0 < d.data_status.replicas.getD 0 →
          getK8sServiceStatus store n ns = "running")
        ∧ (0 < d.data_status.readyReplicas.getD 0
            ∧ d.data_status.readyReplicas.getD 0 < d.data_status.replicas.getD 0 →
          getK8sServiceStatus store n ns = "deploying")
        ∧ (d.data_status.readyReplicas.getD 0 = 0 →
          getK8sServiceStatus store n ns = "failed") := by
  constructor
  · intro h
    simp [getK8sServiceStatus, h]
  · intro d hd
    refine ⟨fun hr => ?_, fun hdep => ?_, fun hf => ?_⟩
    · simp [getK8sServiceStatus, hd, hr.1, hr.2]
    · have hne : ¬(d.data_status.readyReplicas.getD 0 = d.data_status.replicas.getD 0
          ∧ 0 < d.data_status.replicas.getD 0) := by
        rintro ⟨he, -⟩
        omega
      simp only [getK8sServiceStatus, hd]
      rw [if_neg hne, if_pos hdep.1]
    · have hne : ¬(d.data_status.readyReplicas.getD 0 = d.data_status.replicas.getD 0
          ∧ 0 < d.data_status.replicas.getD 0) := by
        rintro ⟨he, hpos⟩
        omega
      simp only [getK8sServiceStatus, hd]
      rw [if_neg hne, if_neg (by omega)]

/-- Witness for C4: a concrete mid-rollout Deployment (1 of 2 replicas ready)
classifies as `"deploying"`. -/
theorem k8s_service_status_classification_witness :
    getK8sServiceStatus
      [⟨"Deployment", "orders", "prod", "u1", ⟨some 1, some 2⟩, "synced"⟩]
      "orders" "prod" = "deploying" := by
  have h := (k8s_service_status_classification
      [⟨"Deployment", "orders", "prod", "u1", ⟨some 1, some 2⟩, "synced"⟩]
      "orders" "prod").2
      ⟨"Deployment", "orders", "prod", "u1", ⟨some 1, some 2⟩, "synced"⟩ (by decide)
  exact h.2.1 (by decide)

/-! ## Generic lemmas about the upsert primitive -/

theorem mem_replaceOneUpsert {α : Type} (st : List α) (m : α → Bool) (doc : α) :
    ∀ x ∈ replaceOneUpsert st m doc, x ∈ st ∨ x = doc := by
  induction st with
  | nil =>
    intro x hx
    simp [replaceOneUpsert] at hx
    exact Or.inr hx
  | cons d ds ih =>
    intro x hx
    by_cases hd : m d
    · simp [replaceOneUpsert, hd] at hx
      rcases hx with h | h
      · exact Or.inr h
      · exact Or.inl (List.mem_cons_of_mem _ h)
    · simp [replaceOneUpsert, hd] at hx
      rcases hx with h | h
      · exact Or.inl (by simp [h])
      · rcases ih x h with h' | h'
        · exact Or.inl (List.mem_cons_of_mem _ h')
        · exact Or.inr h'

theorem exists_mem_replaceOneUpsert {α : Type} {q : α → Prop} (st : List α)
    (m : α → Bool) (doc : α) (hq : ∀ y ∈ st, m y = true → q y → q doc) :
    (∃ x ∈ st, q x) → ∃ x ∈ replaceOneUpsert st m doc, q x := by
  induction st with
  | nil => rintro ⟨x, hx, -⟩; simp at hx
  | cons d ds ih =>
    rintro ⟨x, hx, hqx⟩
    by_cases hd : m d
    · rcases List.mem_cons.mp hx with rfl | hx'
      · exact ⟨doc, by simp [replaceOneUpsert, hd], hq x (by simp) hd hqx⟩
      · exact ⟨x, by simp [replaceOneUpsert, hd, hx'], hqx⟩
    · rcases List.mem_cons.mp hx with rfl | hx'
      · exact ⟨x, by simp [replaceOneUpsert, hd], hqx⟩
      · rcases ih (fun y hy => hq y (List.mem_cons_of_mem _ hy)) ⟨x, hx', hqx⟩ with ⟨z, hz, hqz⟩
        exact ⟨z, by simp [replaceOneUpsert, hd, hz], hqz⟩

theorem countP_replaceOneUpsert {α : Type} (p : α → Bool) (doc : α)
    (hdoc : p doc = true) :
    ∀ st : List α, st.countP p ≤ 1 → (replaceOneUpsert st p doc).countP p = 1 := by
  intro st
  induction st with
  | nil => intro _; simp [replaceOneUpsert, List.countP_cons, hdoc]
  | cons d ds ih =>
    intro hle
    by_cases hd : p d
    · have h0 : ds.countP p = 0 := by
        have h1 : (d :: ds).countP p = ds.countP p + 1 := by
          simp [List.countP_cons, hd]
        omega
      simp [replaceOneUpsert, hd, List.countP_cons, hdoc, h0]
    · have hle' : ds.countP p ≤ 1 := by
        have h1 : (d :: ds).countP p = ds.countP p := by
          simp [List.countP_cons, hd]
        omega
      simp [replaceOneUpsert, hd, List.countP_cons, ih hle']

theorem mem_unique_replaceOneUpsert {α : Type} (p : α → Bool) (doc : α)
    (hdoc : p doc = true) :
    ∀ st : List α, st.countP p ≤ 1 →
      ∀ x ∈ replaceOneUpsert st p doc, p x = true → x = doc := by
  intro st
  induction st with
  | nil =>
    intro _ x hx _
    simpa [replaceOneUpsert] using hx
  | cons d ds ih =>
    intro hle x hx hpx
    by_cases hd : p d
    · simp [replaceOneUpsert, hd] at hx
      rcases hx with rfl | hx'
      · rfl
      · exfalso
        have h0 : ds.countP p = 0 := by
          have h1 : (d :: ds).countP p = ds.countP p + 1 := by
            simp [List.countP_cons, hd]
          omega
        have := List.countP_eq_zero.mp h0 x hx'
        simp [hpx] at this
    · simp [replaceOneUpsert, hd] at hx
      rcases hx with rfl | hx'
      · simp [hd] at hpx
      · refine ih ?_ x hx' hpx
        have h1 : (d :: ds).countP p = ds.countP p := by
          simp [List.countP_cons, hd]
        omega

theorem iterate_replaceOneUpsert {α : Type} (p : α → Bool) (doc : α)
    (hdoc : p doc = true) :
    ∀ (k : Nat) (st : List α), st.countP p ≤ 1 →
      ((fun s => replaceOneUpsert s p doc)^[k] (replaceOneUpsert st p doc)).countP p = 1
      ∧ ∀ x ∈ (fun s => replaceOneUpsert s p doc)^[k] (replaceOneUpsert st p doc),
          p x = true → x = doc := by
  intro k
  induction k with
  | zero =>
    intro st hle
    exact ⟨countP_replaceOneUpsert p doc hdoc st hle,
      mem_unique_replaceOneUpsert p doc hdoc st hle⟩
  | succ k ih =>
    intro st hle
    have hle' : (replaceOneUpsert st p doc).countP p ≤ 1 :=
      le_of_eq (countP_replaceOneUpsert p doc hdoc st hle)
    have h := ih (replaceOneUpsert st p doc) hle'
    simpa [Function.iterate_succ_apply] using h

/-! ## C5: idempotent upserts -/

/-- C5: saving the same `ClusterResource` record (keyed by `uid`) or the
same fetcher-side `Application` record (keyed by `name`) `n ≥ 1` times into
a store holding at most one record with that key leaves exactly one record
with that key, whose fields are the last-applied values: the write is a
replace-if-exists-else-insert, never an append. -/
theorem upsert_idempotent_single_record :
    (∀ (store : List K8sResourceDoc) (r : K8sResourceData) (n : Nat), 1 ≤ n →
      store.countP (fun d => d.uid == r.uid) ≤ 1 →
      ((fun s => saveK8sResource s r)^[n] store).countP (fun d => d.uid == r.uid) = 1
      ∧ ∀ d ∈ (fun s => saveK8sResource s r)^[n] store,
          (d.uid == r.uid) = true → d = mkK8sResourceDoc r)
    ∧ ∀ (store : List MongoAppDoc) (doc : MongoAppDoc) (n : Nat), 1 ≤ n →
      doc.name ≠ "" →
      store.countP (fun d => d.name == doc.name) ≤ 1 →
      ((fun s => (upsertApplication s doc).2)^[n] store).countP
          (fun d => d.name == doc.name) = 1
      ∧ ∀ d ∈ (fun s => (upsertApplication s doc).2)^[n] store,
          (d.name == doc.name) = true → d = doc := by
  constructor
  · intro store r n hn hle
    match n, hn with
    | Nat.succ k, _ =>
      have hdoc : ((mkK8sResourceDoc r).uid == r.uid) = true := by
        simp [mkK8sResourceDoc]
      have hfun : (fun s => saveK8sResource s r)
          = fun s => replaceOneUpsert s (fun d => d.uid == r.uid) (mkK8sResourceDoc r) := by
        funext s; rfl
      rw [hfun, Function.iterate_succ_apply]
      exact iterate_replaceOneUpsert (fun d => d.uid == r.uid) (mkK8sResourceDoc r)
        hdoc k store hle
  · intro store doc n hn hname hle
    match n, hn with
    | Nat.succ k, _ =>
      have hdoc : (doc.name == doc.name) = true := by simp
      have hfun : (fun s => (upsertApplication s doc).2)
          = fun s => replaceOneUpsert s (fun d => d.name == doc.name) doc := by
        funext s
        simp [upsertApplication, hname]
      rw [hfun, Function.iterate_succ_apply]
      exact iterate_replaceOneUpsert (fun d => d.name == doc.name) doc hdoc k store hle

/-- Witness for C5: saving a concrete resource three times into an empty
store, and a concrete application twice, each leaves exactly one record. -/
theorem upsert_idempotent_single_record_witness :
    ((fun s => saveK8sResource s sampleRes)^[3] []).countP
        (fun d => d.uid == sampleRes.uid) = 1
    ∧ ((fun s => (upsertApplication s sampleMongoDoc).2)^[2] []).countP
        (fun d => d.name == sampleMongoDoc.name) = 1 :=
  ⟨(upsert_idempotent_single_record.1 [] sampleRes 3 (by decide) (by decide)).1,
   (upsert_idempotent_single_record.2 [] sampleMongoDoc 2 (by decide) (by decide)
      (by decide)).1⟩

/-! ## C10: empty pull never prunes -/

/-- C10: an empty ArgoCD application pull makes
`sync_applications_to_mongodb` return `False` immediately: no stored
application is deleted or upserted, the store is unchanged. -/
theorem fetcher_empty_pull_is_noop (store : List MongoAppDoc) :
    fetcherSyncApplications [] store = (false, store) := rfl

/-! ## C6: webhook signature handling -/

/-- C6 (code bug): with a secret configured, a wrong or missing signature is
rejected and triggers no sync — but the rejection reaches the caller as
`HTTPException(500, "401: Invalid webhook signature")`, not as the 401 the
handler raises: the blanket `except Exception` of `handle_webhook` catches
the `HTTPException(401)` raised in its own `try` block and re-raises it as
a 500.  Without a secret, verification is skipped and any signature passes. -/
theorem webhook_bad_signature_surfaces_500 :
    handleWebhook sampleHmacHex (some "topsecret") "push"
        ⟨"raw-body", some samplePushPayload⟩ (some "sha256=wrong")
      = .error (500, "401: Invalid webhook signature")
    ∧ handleWebhook sampleHmacHex (some "topsecret") "push"
        ⟨"raw-body", some samplePushPayload⟩ none
      = .error (500, "401: Invalid webhook signature")
    ∧ verifyWebhookSignature sampleHmacHex none "raw-body" "" = true
    ∧ verifyWebhookSignature sampleHmacHex (some "topsecret") "raw-body"
        ("sha256=" ++ sampleHmacHex "topsecret" "raw-body") = true := by
  refine ⟨?_, ?_, rfl, by simp [verifyWebhookSignature]⟩ <;> rfl

/-! ## C9: best-effort cluster readers -/

theorem runKubectl_nonzero (code : Int) (out : Option Json) (h : code ≠ 0) :
    runKubectl (.exits code out) = .obj [] := by
  simp [runKubectl, h]

theorem runArgocd_nonzero (code : Int) (out : Option Json) (h : code ≠ 0) :
    runArgocd (.exits code out) = .obj [] := by
  simp [runArgocd, h]

theorem getNamespaces_empty_of_obj (o : CmdOutcome) (h : runKubectl o = .obj []) :
    getNamespaces o = [] := by
  unfold getNamespaces
  rw [h]
  rfl

theorem getPods_empty_of_obj (o : CmdOutcome) (h : runKubectl o = .obj []) :
    getPods o = [] := by
  unfold getPods
  rw [h]
  rfl

theorem getDeployments_empty_of_obj (o : CmdOutcome) (h : runKubectl o = .obj []) :
    getDeployments o = [] := by
  unfold getDeployments
  rw [h]
  rfl

theorem getServices_empty_of_obj (o : CmdOutcome) (h : runKubectl o = .obj []) :
    getServices o = [] := by
  unfold getServices
  rw [h]
  rfl

theorem getIngresses_empty_of_obj (o : CmdOutcome) (h : runKubectl o = .obj []) :
    getIngresses o = [] := by
  unfold getIngresses
  rw [h]
  rfl

theorem getApplications_empty_of_obj (o : CmdOutcome) (details : String → CmdOutcome)
    (h : runArgocd o = .obj []) : getApplications o details = [] := by
  unfold getApplications
  rw [h]
  rfl

/-- C9: every cluster-reader listing (namespaces, pods, deployments,
services, ingresses, ArgoCD applications) is best-effort: when the
underlying CLI invocation raises, exits non-zero, or produces unparseable
output, the operation returns the empty list — the readers are total
functions, so no exception crosses the boundary. -/
theorem cluster_readers_best_effort :
    (∀ (msg : String) (details : String → CmdOutcome),
      getNamespaces (.raises msg) = [] ∧ getPods (.raises msg) = []
      ∧ getDeployments (.raises msg) = [] ∧ getServices (.raises msg) = []
      ∧ getIngresses (.raises msg) = [] ∧ getApplications (.raises msg) details = [])
    ∧ (∀ (code : Int) (out : Option Json) (details : String → CmdOutcome), code ≠ 0 →
      getNamespaces (.exits code out) = [] ∧ getPods (.exits code out) = []
      ∧ getDeployments (.exits code out) = [] ∧ getServices (.exits code out) = []
      ∧ getIngresses (.exits code out) = []
      ∧ getApplications (.exits code out) details = [])
    ∧ (∀ details : String → CmdOutcome,
      getNamespaces (.exits 0 none) = [] ∧ getPods (.exits 0 none) = []
      ∧ getDeployments (.exits 0 none) = [] ∧ getServices (.exits 0 none) = []
      ∧ getIngresses (.exits 0 none) = []
      ∧ getApplications (.exits 0 none) details = []) := by
  refine ⟨?_, ?_, ?_⟩
  · intro msg details
    exact ⟨rfl, rfl, rfl, rfl, rfl, rfl⟩
  · intro code out details h
    have hk := runKubectl_nonzero code out h
    have ha := runArgocd_nonzero code out h
    exact ⟨getNamespaces_empty_of_obj _ hk, getPods_empty_of_obj _ hk,
      getDeployments_empty_of_obj _ hk, getServices_empty_of_obj _ hk,
      getIngresses_empty_of_obj _ hk, getApplications_empty_of_obj _ details ha⟩
  · intro details
    exact ⟨rfl, rfl, rfl, rfl, rfl, rfl⟩

/-- Witness for C9: a non-zero exit code on concrete invocations yields
empty listings. -/
theorem cluster_readers_best_effort_witness :
    getDeployments (.exits 1 none) = []
    ∧ getApplications (.exits 1 none) (fun _ => .raises "unreachable") = [] := by
  have h := cluster_readers_best_effort.2.1 1 none
    (fun _ => .raises "unreachable") (by decide)
  exact ⟨h.2.2.1, h.2.2.2.2.2⟩

/-! ## C7: sync-job lifecycle -/

theorem updateJobStatus_append (j st : String) (e : Option String) :
    ∀ (l : List SyncJobDoc) (d0 : SyncJobDoc), (∀ d ∈ l, d.job_id ≠ j) → d0.job_id = j →
      updateJobStatus (l ++ [d0]) j st e
        = l ++ [{ d0 with
                  status := st
                  last_error := (match e with
                    | some m => some m
                    | none => d0.last_error) }] := by
  intro l
  induction l with
  | nil =>
    intro d0 _ hd0
    simp [updateJobStatus, hd0]
  | cons d ds ih =>
    intro d0 hl hd0
    have hne : (d.job_id == j) = false := by
      simp [hl d (List.mem_cons_self d ds)]
    simp only [List.cons_append, updateJobStatus, hne, Bool.false_eq_true, if_false,
      List.cons.injEq, true_and]
    exact ih d0 (fun x hx => hl x (List.mem_cons_of_mem _ hx)) hd0

theorem find?_append_last {α : Type} (p : α → Bool) (x : α) (hx : p x = true) :
    ∀ l : List α, (∀ d ∈ l, p d = false) → (l ++ [x]).find? p = some x := by
  intro l
  induction l with
  | nil => intro _; simp [List.find?, hx]
  | cons d ds ih =>
    intro hl
    have hd : p d = false := hl d (List.mem_cons_self d ds)
    simp only [List.cons_append, List.find?, hd]
    exact ih (fun y hy => hl y (List.mem_cons_of_mem _ hy))

theorem find?_append_of_some {α : Type} (p : α → Bool) (a : α) :
    ∀ (l l' : List α), l.find? p = some a → (l ++ l').find? p = some a := by
  intro l l'
  induction l with
  | nil => intro h; simp at h
  | cons d ds ih =>
    intro h
    by_cases hd : p d
    · simp only [List.find?, hd] at h
      simpa [List.find?, hd] using h
    · simp only [List.find?, Bool.not_eq_true] at hd
      simp only [List.find?, hd] at h
      simpa [List.find?, hd] using ih h

theorem updateJobStatus_find?_ne (j' st : String) (e : Option String) (j : String)
    (h : j' ≠ j) :
    ∀ l : List SyncJobDoc,
      (updateJobStatus l j' st e).find? (fun d => d.job_id == j)
        = l.find? (fun d => d.job_id == j) := by
  intro l
  induction l with
  | nil => rfl
  | cons d ds ih =>
    by_cases hd : (d.job_id == j') = true
    · have hd' : d.job_id = j' := by simpa using hd
      have hdj : (d.job_id == j) = false := by simp [hd', h]
      simp [updateJobStatus, hd, List.find?, hdj]
    · simp only [Bool.not_eq_true] at hd
      by_cases hdj : (d.job_id == j) = true
      · simp [updateJobStatus, hd, List.find?, hdj]
      · simp only [Bool.not_eq_true] at hdj
        simp [updateJobStatus, hd, List.find?, hdj, ih]

/-- C7: every sync run (full or incremental — `job_type` is arbitrary)
inserts its job record with status `"running"` and updates it exactly once
to a terminal status: `"completed"` when no sub-step error escapes,
`"failed"` with the first escaped error message otherwise; the status
sequence written to the record is exactly `["running", terminal]`, and any
later sync run (which has a fresh job id) leaves the terminal record
untouched. -/
theorem sync_job_lifecycle (store : List SyncJobDoc) (job_id job_type : String)
    (steps : List (Except String Unit)) (hfresh : ∀ d ∈ store, d.job_id ≠ job_id) :
    ∃ doc : SyncJobDoc,
      (runSyncJob store job_id job_type steps).find? (fun d => d.job_id == job_id)
        = some doc
      ∧ (doc.status = "completed" ∨ doc.status = "failed")
      ∧ (doc.status = "completed" ↔ firstStepError steps = none)
      ∧ (∀ e, firstStepError steps = some e →
          doc.status = "failed" ∧ doc.last_error = some e)
      ∧ runSyncJobTrace steps = ["running", doc.status]
      ∧ ∀ (job_id' job_type' : String) (steps' : List (Except String Unit)),
          job_id' ≠ job_id →
          (runSyncJob (runSyncJob store job_id job_type steps) job_id' job_type' steps').find?
              (fun d => d.job_id == job_id) = some doc := by
  have hfreshF : ∀ d ∈ store, ((fun d : SyncJobDoc => d.job_id == job_id) d) = false :=
    fun d hd => by simp [hfresh d hd]
  have hself : ((⟨job_id, job_type, "running", none⟩ : SyncJobDoc).job_id == job_id) = true := by
    simp
  cases hstep : firstStepError steps with
  | none =>
    have hrun : runSyncJob store job_id job_type steps
        = store ++ [⟨job_id, job_type, "completed", none⟩] := by
      unfold runSyncJob insertOne
      rw [hstep]
      exact updateJobStatus_append job_id "completed" none store
        ⟨job_id, job_type, "running", none⟩ hfresh rfl
    have hfind : (runSyncJob store job_id job_type steps).find?
        (fun d => d.job_id == job_id) = some ⟨job_id, job_type, "completed", none⟩ := by
      rw [hrun]
      exact find?_append_last _ _ (by simp) store hfreshF
    refine ⟨⟨job_id, job_type, "completed", none⟩, hfind, Or.inl rfl, ?_, ?_, ?_, ?_⟩
    · simp
    · intro e he
      cases he
    · simp [runSyncJobTrace, hstep]
    intro job_id' job_type' steps' hne
    unfold runSyncJob insertOne
    cases hstep' : firstStepError steps' with
    | none =>
      rw [updateJobStatus_find?_ne job_id' "completed" none job_id hne]
      exact find?_append_of_some _ _ _ _ hfind
    | some e' =>
      rw [updateJobStatus_find?_ne job_id' "failed" (some e') job_id hne]
      exact find?_append_of_some _ _ _ _ hfind
  | some e =>
    have hrun : runSyncJob store job_id job_type steps
        = store ++ [⟨job_id, job_type, "failed", some e⟩] := by
      unfold runSyncJob insertOne
      rw [hstep]
      exact updateJobStatus_append job_id "failed" (some e) store
        ⟨job_id, job_type, "running", none⟩ hfresh rfl
    have hfind : (runSyncJob store job_id job_type steps).find?
        (fun d => d.job_id == job_id) = some ⟨job_id, job_type, "failed", some e⟩ := by
      rw [hrun]
      exact find?_append_last _ _ (by simp) store hfreshF
    refine ⟨⟨job_id, job_type, "failed", some e⟩, hfind, Or.inr rfl, ?_, ?_, ?_, ?_⟩
    · simp
    · intro e' he'
      injection he' with h
      exact ⟨rfl, by rw [h]⟩
    · simp [runSyncJobTrace, hstep]
    intro job_id' job_type' steps' hne
    unfold runSyncJob insertOne
    cases hstep' : firstStepError steps' with
    | none =>
      rw [updateJobStatus_find?_ne job_id' "completed" none job_id hne]
      exact find?_append_of_some _ _ _ _ hfind
    | some e' =>
      rw [updateJobStatus_find?_ne job_id' "failed" (some e') job_id hne]
      exact find?_append_of_some _ _ _ _ hfind

/-- Witness for C7: a concrete full-sync run over an empty job store whose
steps all succeed ends with a terminal job record. -/
theorem sync_job_lifecycle_witness :
    ∃ doc : SyncJobDoc,
      (runSyncJob [] "full_sync_20240101_000000" "full_sync"
          [Except.ok ()]).find? (fun d => d.job_id == "full_sync_20240101_000000")
        = some doc
      ∧ (doc.status = "completed" ∨ doc.status = "failed") := by
  obtain ⟨doc, h1, h2, -⟩ := sync_job_lifecycle [] "full_sync_20240101_000000"
    "full_sync" [Except.ok ()] (by simp)
  exact ⟨doc, h1, h2⟩

/-! ## C2: pruning behaviour (counterexample) -/

theorem mem_deleteOne {α : Type} (m : α → Bool) :
    ∀ (st : List α) (x : α), x ∈ deleteOne st m → x ∈ st := by
  intro st
  induction st with
  | nil => intro x hx; simp [deleteOne] at hx
  | cons d ds ih =>
    intro x hx
    by_cases hd : m d
    · simp [deleteOne, hd] at hx
      exact List.mem_cons_of_mem _ hx
    · simp [deleteOne, hd] at hx
      rcases hx with rfl | hx'
      · exact List.mem_cons_self _ _
      · exact List.mem_cons_of_mem _ (ih x hx')

theorem deleteOne_sublist {α : Type} (m : α → Bool) :
    ∀ st : List α, List.Sublist (deleteOne st m) st := by
  intro st
  induction st with
  | nil => simp [deleteOne]
  | cons d ds ih =>
    by_cases hd : m d
    · simp only [deleteOne, hd, if_true]
      exact List.sublist_cons_self d ds
    · simpa [deleteOne, hd] using List.Sublist.cons₂ d ih

theorem deleteApplication_removes (n : String) :
    ∀ st : List MongoAppDoc, (st.map (fun d => d.name)).Nodup →
      ∀ d ∈ deleteApplication st n, d.name ≠ n := by
  intro st
  induction st with
  | nil => intro _ d hd; simp [deleteApplication, deleteOne] at hd
  | cons d0 ds ih =>
    intro hnd d hd
    have hnd' := hnd
    simp only [List.map_cons, List.nodup_cons] at hnd'
    by_cases h0 : (d0.name == n) = true
    · have h0' : d0.name = n := by simpa using h0
      simp only [deleteApplication, deleteOne, h0, if_true] at hd
      intro hdn
      refine hnd'.1 ?_
      rw [h0', ← hdn]
      exact List.mem_map_of_mem _ hd
    · simp only [deleteApplication, deleteOne, h0, Bool.false_eq_true, if_false,
        List.mem_cons] at hd
      rcases hd with rfl | hd'
      · simpa using h0
      · exact ih hnd'.2 d hd'

theorem deleteApplication_keeps (n n' : String) (hne : n' ≠ n) :
    ∀ st : List MongoAppDoc, (∃ d ∈ st, d.name = n) →
      ∃ d ∈ deleteApplication st n', d.name = n := by
  intro st
  induction st with
  | nil => rintro ⟨d, hd, -⟩; simp at hd
  | cons d0 ds ih =>
    rintro ⟨d, hd, hdn⟩
    by_cases h0 : (d0.name == n') = true
    · have h0' : d0.name = n' := by simpa using h0
      rcases List.mem_cons.mp hd with rfl | hd'
      · exact absurd (h0' ▸ hdn) hne
      · exact ⟨d, by simpa [deleteApplication, deleteOne, h0] using hd', hdn⟩
    · rcases List.mem_cons.mp hd with rfl | hd'
      · exact ⟨d, by simp [deleteApplication, deleteOne, h0], hdn⟩
      · obtain ⟨x, hx, hxn⟩ := ih ⟨d, hd', hdn⟩
        refine ⟨x, ?_, hxn⟩
        simp only [deleteApplication, deleteOne, h0, Bool.false_eq_true, if_false,
          List.mem_cons]
        exact Or.inr hx

/-- The deletion loop of `sync_applications_to_mongodb`, abstracted over the
name list. -/
theorem foldDeletes_subset :
    ∀ (ns : List String) (st : List MongoAppDoc) (d : MongoAppDoc),
      d ∈ ns.foldl (fun st n => if n = "" then st else deleteApplication st n) st →
      d ∈ st := by
  intro ns
  induction ns with
  | nil => intro st d hd; exact hd
  | cons n0 rest ih =>
    intro st d hd
    by_cases h0 : n0 = ""
    · simp only [List.foldl_cons, h0, if_true] at hd
      simpa [h0] using ih st d (by simpa [h0] using hd)
    · have hd' := ih _ d (by simpa [List.foldl_cons, h0] using hd)
      exact mem_deleteOne _ st d hd'

theorem foldDeletes_nodup :
    ∀ (ns : List String) (st : List MongoAppDoc),
      (st.map (fun d => d.name)).Nodup →
      ((ns.foldl (fun st n => if n = "" then st else deleteApplication st n) st).map
        (fun d => d.name)).Nodup := by
  intro ns
  induction ns with
  | nil => intro st h; exact h
  | cons n0 rest ih =>
    intro st h
    simp only [List.foldl_cons]
    by_cases h0 : n0 = ""
    · simpa [h0] using ih st h
    · simp only [h0, if_false]
      exact ih _ (h.sublist ((deleteOne_sublist _ st).map _))

theorem foldDeletes_removes :
    ∀ (ns : List String) (st : List MongoAppDoc) (n : String),
      (st.map (fun d => d.name)).Nodup → n ∈ ns → n ≠ "" →
      ∀ d ∈ ns.foldl (fun st n => if n = "" then st else deleteApplication st n) st,
        d.name ≠ n := by
  intro ns
  induction ns with
  | nil => intro st n _ hn; simp at hn
  | cons n0 rest ih =>
    intro st n hnd hn hne d hd
    by_cases heq : n = n0
    · subst heq
      simp only [List.foldl_cons, hne, if_false] at hd
      have hd' : d ∈ deleteApplication st n := foldDeletes_subset rest _ d hd
      exact deleteApplication_removes n st hnd d hd'
    · have hn' : n ∈ rest := by
        rcases List.mem_cons.mp hn with h | h
        · exact absurd h heq
        · exact h
      simp only [List.foldl_cons] at hd
      by_cases h0 : n0 = ""
      · exact ih st n hnd hn' hne d (by simpa [h0] using hd)
      · refine ih _ n ?_ hn' hne d (by simpa [h0] using hd)
        exact hnd.sublist ((deleteOne_sublist _ st).map _)

theorem foldDeletes_keeps :
    ∀ (ns : List String) (st : List MongoAppDoc) (n : String),
      n ∉ ns → (∃ d ∈ st, d.name = n) →
      ∃ d ∈ ns.foldl (fun st n => if n = "" then st else deleteApplication st n) st,
        d.name = n := by
  intro ns
  induction ns with
  | nil => intro st n _ h; exact h
  | cons n0 rest ih =>
    intro st n hn hex
    have hn0 : n ≠ n0 := fun h => hn (h ▸ List.mem_cons_self n0 rest)
    have hnrest : n ∉ rest := fun h => hn (List.mem_cons_of_mem _ h)
    simp only [List.foldl_cons]
    by_cases h0 : n0 = ""
    · simpa [h0] using ih st n hnrest hex
    · simp only [h0, if_false]
      exact ih _ n hnrest (deleteApplication_keeps n n0 (fun h => hn0 h.symm) st hex)

/-- The upsert loop of `sync_applications_to_mongodb`, abstracted over the
accumulator. -/
theorem upsertFold_no_name (n : String) (hn : n ≠ "") :
    ∀ (apps : List FetchedApp) (acc : Nat × List MongoAppDoc),
      some n ∉ apps.map (fun a => a.metaName) →
      (∀ d ∈ acc.2, d.name ≠ n) →
      ∀ d ∈ (apps.foldl
        (fun (acc : Nat × List MongoAppDoc) app =>
          let mongodb_doc := transformArgocdApp app
          if mongodb_doc.name = "" then acc
          else
            let (success, st) := upsertApplication acc.2 mongodb_doc
            (if success then acc.1 + 1 else acc.1, st)) acc).2,
        d.name ≠ n := by
  intro apps
  induction apps with
  | nil => intro acc _ hacc d hd; exact hacc d hd
  | cons app rest ih =>
    intro acc hnot hacc d hd
    have hnot' : some n ∉ rest.map (fun a => a.metaName) := by
      intro h; exact hnot (by simp [h])
    have hname : (transformArgocdApp app).name ≠ n := by
      intro h
      cases hm : app.metaName with
      | none =>
        apply hn
        rw [← h]
        simp [transformArgocdApp, hm]
      | some v =>
        have hvn : v = n := by
          have hv : (transformArgocdApp app).name = v := by simp [transformArgocdApp, hm]
          rw [← hv]
          exact h
        exact hnot (by simp [hm, hvn])
    by_cases hempty : (transformArgocdApp app).name = ""
    · refine ih acc hnot' hacc d ?_
      simpa [List.foldl_cons, hempty] using hd
    · simp only [List.foldl_cons, hempty, if_false, upsertApplication] at hd
      refine ih _ hnot' ?_ d hd
      intro x hx
      rcases mem_replaceOneUpsert _ _ _ x hx with hx' | rfl
      · exact hacc x hx'
      · exact hname

theorem upsertFold_keeps (n : String) :
    ∀ (apps : List FetchedApp) (acc : Nat × List MongoAppDoc),
      (∃ d ∈ acc.2, d.name = n) →
      ∃ d ∈ (apps.foldl
        (fun (acc : Nat × List MongoAppDoc) app =>
          let mongodb_doc := transformArgocdApp app
          if mongodb_doc.name = "" then acc
          else
            let (success, st) := upsertApplication acc.2 mongodb_doc
            (if success then acc.1 + 1 else acc.1, st)) acc).2,
        d.name = n := by
  intro apps
  induction apps with
  | nil => intro acc h; exact h
  | cons app rest ih =>
    intro acc hex
    by_cases hempty : (transformArgocdApp app).name = ""
    · simp only [List.foldl_cons, hempty, if_true]
      exact ih acc hex
    · simp only [List.foldl_cons, hempty, if_false, upsertApplication]
      apply ih
      apply exists_mem_replaceOneUpsert _ _ _ _ hex
      intro y _ hmy hqy
      have : y.name = (transformArgocdApp app).name := by simpa using hmy
      rw [← hqy, this]

theorem fetcherSync_nonempty (apps : List FetchedApp) (store : List MongoAppDoc)
    (h : apps.isEmpty = false) :
    (fetcherSyncApplications apps store).2
      = (apps.foldl
          (fun (acc : Nat × List MongoAppDoc) app =>
            let mongodb_doc := transformArgocdApp app
            if mongodb_doc.name = "" then acc
            else
              let (success, st) := upsertApplication acc.2 mongodb_doc
              (if success then acc.1 + 1 else acc.1, st))
          (0, (((store.map (fun d => d.name)).dedup.filter
              (fun n => ! (apps.map (fun a => a.metaName)).contains (some n))).foldl
            (fun st n => if n = "" then st else deleteApplication st n) store))).2 := by
  unfold fetcherSyncApplications
  rw [h]
  rfl

theorem syncArgocd_keeps_uid :
    ∀ (apps : List ArgoAppData) (store : List ArgoAppDoc) (d : ArgoAppDoc), d ∈ store →
      ∃ d' ∈ syncArgocdApplications store apps, d'.uid = d.uid := by
  intro apps
  induction apps with
  | nil => intro store d hd; exact ⟨d, hd, rfl⟩
  | cons app rest ih =>
    intro store d hd
    simp only [syncArgocdApplications, List.foldl_cons]
    have hstep : ∃ y ∈ saveArgoApp store app, y.uid = d.uid := by
      have hex : ∃ y ∈ store, y.uid = d.uid := ⟨d, hd, rfl⟩
      apply exists_mem_replaceOneUpsert _ _ _ _ hex
      intro z _ hmz hqz
      have hz : z.uid = app.uid := by simpa using hmz
      rw [← hqz, ← hz]
    obtain ⟨y, hy, hyu⟩ := hstep
    obtain ⟨d', hd', hdu⟩ := ih (saveArgoApp store app) y hy
    exact ⟨d', hd', by rw [hdu, hyu]⟩

/-- C2 (amended): `DataSyncService` never prunes — both the full-sync and
the incremental-sync application steps only upsert, so every stored
application's uid survives either sync (with prior {A, B, C} and fresh pull
{A, C}, B remains after a full sync, contrary to the claim).  Name-set
deletion reconciliation is instead performed by
`ArgoCDDataFetcher.sync_applications_to_mongodb` on every non-empty pull:
exactly the stored applications whose (non-empty) name is absent from the
pull's `metadata.name` set are removed, and those whose name is present
survive — on {A, B, C} versus a pull of {A, C} the fetcher's store ends as
exactly {A, C}. -/
theorem sync_pruning_amended :
    (∀ (store : List ArgoAppDoc) (apps : List ArgoAppData) (d : ArgoAppDoc), d ∈ store →
      (∃ d' ∈ fullSyncApplicationsStep store apps, d'.uid = d.uid)
      ∧ ∃ d' ∈ incrementalSyncApplicationsStep store apps, d'.uid = d.uid)
    ∧ (∀ (apps : List FetchedApp) (store : List MongoAppDoc),
        apps ≠ [] → (store.map (fun d => d.name)).Nodup → ∀ n : String, n ≠ "" →
          ((∃ d ∈ store, d.name = n) → some n ∉ apps.map (fun a => a.metaName) →
            ∀ d' ∈ (fetcherSyncApplications apps store).2, d'.name ≠ n)
          ∧ ((∃ d ∈ store, d.name = n) → some n ∈ apps.map (fun a => a.metaName) →
            ∃ d' ∈ (fetcherSyncApplications apps store).2, d'.name = n))
    ∧ (fetcherSyncApplications fetchedAC mongoStoreABC).2.map (fun d => d.name)
        = ["A", "C"] := by
  refine ⟨?_, ?_, by decide⟩
  · intro store apps d hd
    exact ⟨syncArgocd_keeps_uid apps store d hd, syncArgocd_keeps_uid apps store d hd⟩
  · intro apps store hne hnodup n hn
    have hemp : apps.isEmpty = false := by
      cases apps with
      | nil => exact absurd rfl hne
      | cons a as => rfl
    constructor
    · intro hex hnot d' hd'
      rw [fetcherSync_nonempty apps store hemp] at hd'
      refine upsertFold_no_name n hn apps _ hnot ?_ d' hd'
      intro d hd
      refine foldDeletes_removes _ store n hnodup ?_ hn d hd
      have hcur : n ∈ (store.map (fun d => d.name)).dedup := by
        obtain ⟨d0, hd0, hd0n⟩ := hex
        exact List.mem_dedup.mpr (hd0n ▸ List.mem_map_of_mem _ hd0)
      refine List.mem_filter.mpr ⟨hcur, ?_⟩
      simpa using hnot
    · intro hex hmem
      rw [fetcherSync_nonempty apps store hemp]
      apply upsertFold_keeps
      apply foldDeletes_keeps _ store n ?_ hex
      intro hmemdel
      have hfilt := (List.mem_filter.mp hmemdel).2
      simp [hmem] at hfilt

/-- Witness for C2's amended claim: B's uid survives the full-sync
application step on the concrete {A, B, C} store, and the fetcher leaves the
concrete store as exactly {A, C}. -/
theorem sync_pruning_amended_witness :
    (∃ d' ∈ fullSyncApplicationsStep storeABC pullAC, d'.uid = "uid-b")
    ∧ (fetcherSyncApplications fetchedAC mongoStoreABC).2.map (fun d => d.name)
        = ["A", "C"]
    ∧ ¬ ∃ d' ∈ (fetcherSyncApplications fetchedAC mongoStoreABC).2, d'.name = "B" := by
  refine ⟨(sync_pruning_amended.1 storeABC pullAC ⟨"B", "argocd", "uid-b", "Healthy", "synced"⟩
      (by decide)).1, sync_pruning_amended.2.2, ?_⟩
  rintro ⟨d', hd', hname⟩
  exact ((sync_pruning_amended.2.1 fetchedAC mongoStoreABC (by decide) (by decide)
      "B" (by decide)).1 ⟨⟨"B", "Healthy"⟩, by decide, rfl⟩ (by decide)) d' hd' hname

/-- C2 counterexample: with prior stored applications {A, B, C} and a fresh
pull {A, C}, `DataSyncService.full_sync`'s application step leaves the store
with names `["A", "B", "C"]` — B is NOT removed, contradicting the claim
that a full sync leaves exactly {A, C}. -/
theorem full_sync_prunes_nothing_counterexample :
    (fullSyncApplicationsStep storeABC pullAC).map (fun d => d.name)
      = ["A", "B", "C"] := by decide

/-! ## C3: health-pass isolation (counterexample) -/

/-! ## C8: discovery non-duplication -/

theorem createServiceMetadata_key (d : DeploymentData) (m : ServiceDoc)
    (h : createServiceMetadata d = some m) :
    m.service_name = some d.name ∧ m.nspace = some d.nspace := by
  unfold createServiceMetadata at h
  cases hcont : d.containers with
  | nil => rw [hcont] at h; cases h
  | cons c cs =>
    rw [hcont] at h
    injection h with h'
    subst h'
    exact ⟨rfl, rfl⟩

theorem hasServiceKey_discoverStep (st : List ServiceDoc) (d : DeploymentData)
    (n ns : String) (h : hasServiceKey st n ns = true) :
    hasServiceKey (discoverStep st d) n ns = true := by
  by_cases hk : hasServiceKey st d.name d.nspace = true
  · simpa [discoverStep, hk] using h
  · have hkf : hasServiceKey st d.name d.nspace = false := by simpa using hk
    cases hc : createServiceMetadata d with
    | none => simpa [discoverStep, hkf, hc] using h
    | some m =>
      simp only [discoverStep, hkf, Bool.false_eq_true, if_false, hc]
      unfold hasServiceKey at h ⊢
      simp [List.any_append, h]

theorem hasServiceKey_discover (deps : List DeploymentData) :
    ∀ (st : List ServiceDoc) (n ns : String), hasServiceKey st n ns = true →
      hasServiceKey (discoverExistingServices st deps) n ns = true := by
  induction deps with
  | nil => intro st n ns h; exact h
  | cons d0 rest ih =>
    intro st n ns h
    simp only [discoverExistingServices, List.foldl_cons]
    exact ih _ n ns (hasServiceKey_discoverStep st d0 n ns h)

theorem discover_processed (deps : List DeploymentData) :
    ∀ st : List ServiceDoc, ∀ d ∈ deps,
      hasServiceKey (discoverExistingServices st deps) d.name d.nspace = true
      ∨ createServiceMetadata d = none := by
  induction deps with
  | nil => intro st d hd; simp at hd
  | cons d0 rest ih =>
    intro st d hd
    rcases List.mem_cons.mp hd with rfl | hd'
    · by_cases hk : hasServiceKey st d.name d.nspace = true
      · left
        simp only [discoverExistingServices, List.foldl_cons]
        exact hasServiceKey_discover rest _ _ _ (hasServiceKey_discoverStep st d _ _ hk)
      · cases hc : createServiceMetadata d with
        | none => exact Or.inr rfl
        | some m =>
          left
          simp only [discoverExistingServices, List.foldl_cons]
          apply hasServiceKey_discover rest
          have hkf : hasServiceKey st d.name d.nspace = false := by simpa using hk
          obtain ⟨hm1, hm2⟩ := createServiceMetadata_key d m hc
          simp only [discoverStep, hkf, Bool.false_eq_true, if_false, hc]
          unfold hasServiceKey
          simp [List.any_append, hm1, hm2]
    · simp only [discoverExistingServices, List.foldl_cons]
      exact ih _ d hd'

theorem discover_fixpoint (deps : List DeploymentData) :
    ∀ st : List ServiceDoc,
      (∀ d ∈ deps, hasServiceKey st d.name d.nspace = true
        ∨ createServiceMetadata d = none) →
      discoverExistingServices st deps = st := by
  induction deps with
  | nil => intro st _; rfl
  | cons d0 rest ih =>
    intro st h
    have hstep : discoverStep st d0 = st := by
      rcases h d0 (List.mem_cons_self d0 rest) with hk | hc
      · simp [discoverStep, hk]
      · by_cases hk : hasServiceKey st d0.name d0.nspace = true
        · simp [discoverStep, hk]
        · have hkf : hasServiceKey st d0.name d0.nspace = false := by simpa using hk
          simp [discoverStep, hkf, hc]
    simp only [discoverExistingServices, List.foldl_cons, hstep]
    exact ih st (fun d hd => h d (List.mem_cons_of_mem _ hd))

theorem countServiceKey_append (st : List ServiceDoc) (m : ServiceDoc) (n ns : String) :
    countServiceKey (st ++ [m]) n ns
      = countServiceKey st n ns
        + (if (m.service_name == some n && m.nspace == some ns) = true then 1 else 0) := by
  unfold countServiceKey
  simp [List.countP_append, List.countP_cons]

theorem hasServiceKey_iff_countPos (st : List ServiceDoc) (n ns : String) :
    hasServiceKey st n ns = true ↔ 0 < countServiceKey st n ns := by
  unfold hasServiceKey countServiceKey
  rw [List.any_eq_true, List.countP_pos_iff]

theorem discoverStep_count_le (st : List ServiceDoc) (d : DeploymentData)
    (n ns : String) (h : countServiceKey st n ns ≤ 1) :
    countServiceKey (discoverStep st d) n ns ≤ 1 := by
  by_cases hk : hasServiceKey st d.name d.nspace = true
  · simpa [discoverStep, hk] using h
  · have hkf : hasServiceKey st d.name d.nspace = false := by simpa using hk
    cases hc : createServiceMetadata d with
    | none => simpa [discoverStep, hkf, hc] using h
    | some m =>
      obtain ⟨hm1, hm2⟩ := createServiceMetadata_key d m hc
      simp only [discoverStep, hkf, Bool.false_eq_true, if_false, hc]
      rw [countServiceKey_append]
      by_cases hkey : (m.service_name == some n && m.nspace == some ns) = true
      · have hdn : d.name = n ∧ d.nspace = ns := by
          rw [hm1, hm2] at hkey
          simp at hkey
          exact hkey
        have hc0 : countServiceKey st n ns = 0 := by
          by_contra hpos
          have hpos' : 0 < countServiceKey st n ns := Nat.pos_of_ne_zero hpos
          have hkey' := (hasServiceKey_iff_countPos st n ns).mpr hpos'
          rw [← hdn.1, ← hdn.2] at hkey'
          rw [hkey'] at hkf
          cases hkf
        simp [hkey, hc0]
      · simp [hkey, h]

theorem discover_count_le (deps : List DeploymentData) :
    ∀ (st : List ServiceDoc) (n ns : String), countServiceKey st n ns ≤ 1 →
      countServiceKey (discoverExistingServices st deps) n ns ≤ 1 := by
  induction deps with
  | nil => intro st n ns h; exact h
  | cons d0 rest ih =>
    intro st n ns h
    simp only [discoverExistingServices, List.foldl_cons]
    exact ih _ n ns (discoverStep_count_le st d0 n ns h)

theorem discover_count_one (deps : List DeploymentData) (st : List ServiceDoc)
    (n ns : String) (hle : countServiceKey st n ns ≤ 1)
    (hex : ∃ d ∈ deps, d.name = n ∧ d.nspace = ns ∧ d.containers ≠ []) :
    countServiceKey (discoverExistingServices st deps) n ns = 1 := by
  obtain ⟨d, hd, hdn, hdns, hcont⟩ := hex
  rcases discover_processed deps st d hd with hk | hc
  · rw [hdn, hdns] at hk
    have hpos := (hasServiceKey_iff_countPos _ n ns).mp hk
    have hle' := discover_count_le deps st n ns hle
    omega
  · unfold createServiceMetadata at hc
    cases hcs : d.containers with
    | nil => exact absurd hcs hcont
    | cons c cs => rw [hcs] at hc; cases hc

/-- C8: service discovery never duplicates: a second discovery pass over the
same Deployment list is a no-op, and starting from a store with at most one
record per `(service_name, namespace)` key, the store keeps at most one
record per key — exactly one for every Deployment in the list that has a
pod-template container. -/
theorem discovery_no_duplicates (store : List ServiceDoc) (deps : List DeploymentData) :
    discoverExistingServices (discoverExistingServices store deps) deps
      = discoverExistingServices store deps
    ∧ ∀ n ns : String, countServiceKey store n ns ≤ 1 →
        countServiceKey (discoverExistingServices store deps) n ns ≤ 1
        ∧ ((∃ d ∈ deps, d.name = n ∧ d.nspace = ns ∧ d.containers ≠ []) →
            countServiceKey (discoverExistingServices store deps) n ns = 1) := by
  refine ⟨discover_fixpoint deps _ (discover_processed deps store), ?_⟩
  intro n ns hle
  exact ⟨discover_count_le deps store n ns hle,
    fun hex => discover_count_one deps store n ns hle hex⟩

/-- Witness for C8: discovering the concrete `orders` Deployment in an empty
store yields exactly one record, and a second pass changes nothing. -/
theorem discovery_no_duplicates_witness :
    countServiceKey (discoverExistingServices [] [sampleDeployment]) "orders" "prod" = 1
    ∧ discoverExistingServices (discoverExistingServices [] [sampleDeployment])
        [sampleDeployment]
      = discoverExistingServices [] [sampleDeployment] := by
  have h := discovery_no_duplicates [] [sampleDeployment]
  exact ⟨(h.2 "orders" "prod" (by decide)).2
    ⟨sampleDeployment, by simp, rfl, rfl, by decide⟩, h.1⟩

theorem self_mem_replaceOneUpsert {α : Type} (m : α → Bool) (doc : α) :
    ∀ st : List α, doc ∈ replaceOneUpsert st m doc := by
  intro st
  induction st with
  | nil => simp [replaceOneUpsert]
  | cons d ds ih =>
    by_cases hd : m d
    · simp [replaceOneUpsert, hd]
    · simp [replaceOneUpsert, hd]
      right
      exact ih

theorem updateServiceHealth_exists_key (k8sStore : List K8sResourceDoc)
    (argoStore : List ArgoAppDoc) (nm ns : String) :
    ∀ (svcs : List ServiceDoc) (hs : List ServiceHealthDoc),
      (∃ h ∈ hs, h.service_name = nm ∧ h.nspace = ns) →
      ∃ h ∈ updateServiceHealth k8sStore argoStore hs svcs,
        h.service_name = nm ∧ h.nspace = ns := by
  intro svcs
  induction svcs with
  | nil => intro hs hex; exact hex
  | cons s rest ih =>
    intro hs hex
    cases hn : s.service_name with
    | none => simpa [updateServiceHealth, hn] using hex
    | some n' =>
      cases hns : s.nspace with
      | none => simpa [updateServiceHealth, hn, hns] using hex
      | some ns' =>
        simp only [updateServiceHealth, hn, hns]
        apply ih
        apply exists_mem_replaceOneUpsert _ _ _ _ hex
        intro y _ hmy hqy
        have hy : y.service_name = n' ∧ y.nspace = ns' := by
          constructor <;> simp_all
        refine ⟨?_, ?_⟩ <;> simp_all

theorem updateServiceHealth_writes_all (k8sStore : List K8sResourceDoc)
    (argoStore : List ArgoAppDoc) :
    ∀ (svcs : List ServiceDoc) (hs : List ServiceHealthDoc),
      (∀ s ∈ svcs, s.service_name ≠ none ∧ s.nspace ≠ none) →
      ∀ s ∈ svcs, ∀ nm ns, s.service_name = some nm → s.nspace = some ns →
        ∃ h ∈ updateServiceHealth k8sStore argoStore hs svcs,
          h.service_name = nm ∧ h.nspace = ns := by
  intro svcs
  induction svcs with
  | nil => intro hs _ s hmem; simp at hmem
  | cons s0 rest ih =>
    intro hs hwf s hmem nm ns hnm hns
    obtain ⟨hwf1, hwf2⟩ := hwf s0 (List.mem_cons_self s0 rest)
    obtain ⟨n0, hn0⟩ := Option.ne_none_iff_exists'.mp hwf1
    obtain ⟨ns0, hns0⟩ := Option.ne_none_iff_exists'.mp hwf2
    simp only [updateServiceHealth, hn0, hns0]
    rcases List.mem_cons.mp hmem with rfl | hmem'
    · rw [hn0] at hnm
      rw [hns0] at hns
      injection hnm with h1
      injection hns with h2
      subst h1
      subst h2
      apply updateServiceHealth_exists_key
      exact ⟨_, self_mem_replaceOneUpsert _ _ _, rfl, rfl⟩
    · exact ih _ (fun x hx => hwf x (List.mem_cons_of_mem _ hx)) s hmem' nm ns hnm hns

/-- C3 (amended): an error evaluating one service's health aborts the rest
of that health pass: the single `try/except` wraps the whole loop, so for a
service list `pre ++ [bad] ++ rest` where every record of `pre` is
well-formed and `bad` raises (missing `service_name`/`namespace` key), the
pass behaves exactly as if only `pre` had been processed — every service in
`pre` receives a fresh health record, and the services after `bad` receive
none.  (Errors inside the per-service status lookups are caught internally
and do not abort the pass.) -/
theorem health_pass_aborts_amended (k8sStore : List K8sResourceDoc)
    (argoStore : List ArgoAppDoc) (healthStore : List ServiceHealthDoc)
    (pre : List ServiceDoc) (bad : ServiceDoc) (rest : List ServiceDoc)
    (hpre : ∀ s ∈ pre, s.service_name ≠ none ∧ s.nspace ≠ none)
    (hbad : bad.service_name = none ∨ bad.nspace = none) :
    updateServiceHealth k8sStore argoStore healthStore (pre ++ bad :: rest)
      = updateServiceHealth k8sStore argoStore healthStore pre
    ∧ ∀ s ∈ pre, ∀ nm ns, s.service_name = some nm → s.nspace = some ns →
        ∃ h ∈ updateServiceHealth k8sStore argoStore healthStore (pre ++ bad :: rest),
          h.service_name = nm ∧ h.nspace = ns := by
  have habort : ∀ hs : List ServiceHealthDoc,
      updateServiceHealth k8sStore argoStore hs (bad :: rest) = hs := by
    intro hs
    rcases hbad with hb | hb
    · simp [updateServiceHealth, hb]
    · cases hn : bad.service_name with
      | none => simp [updateServiceHealth, hn]
      | some nb => simp [updateServiceHealth, hn, hb]
  have heq : ∀ (l : List ServiceDoc) (hs : List ServiceHealthDoc),
      (∀ s ∈ l, s.service_name ≠ none ∧ s.nspace ≠ none) →
      updateServiceHealth k8sStore argoStore hs (l ++ bad :: rest)
        = updateServiceHealth k8sStore argoStore hs l := by
    intro l
    induction l with
    | nil => intro hs _; exact habort hs
    | cons s0 l' ih =>
      intro hs hwf
      obtain ⟨hwf1, hwf2⟩ := hwf s0 (List.mem_cons_self s0 l')
      obtain ⟨n0, hn0⟩ := Option.ne_none_iff_exists'.mp hwf1
      obtain ⟨ns0, hns0⟩ := Option.ne_none_iff_exists'.mp hwf2
      simp only [List.cons_append, updateServiceHealth, hn0, hns0]
      exact ih _ (fun x hx => hwf x (List.mem_cons_of_mem _ hx))
  refine ⟨heq pre healthStore hpre, ?_⟩
  intro s hmem nm ns hnm hns
  rw [heq pre healthStore hpre]
  exact updateServiceHealth_writes_all k8sStore argoStore pre healthStore hpre
    s hmem nm ns hnm hns

/-- Witness for C3's amended claim: with `[goodService, badService]` the
pass behaves exactly like the pass over `[goodService]` alone, and `orders`
gets its record. -/
theorem health_pass_aborts_amended_witness :
    updateServiceHealth [] [] [] [goodService, badService]
      = updateServiceHealth [] [] [] [goodService]
    ∧ ∃ h ∈ updateServiceHealth [] [] [] [goodService, badService],
        h.service_name = "orders" ∧ h.nspace = "prod" := by
  have h := health_pass_aborts_amended [] [] [] [goodService] badService []
    (by intro s hs; simp [goodService] at hs; subst hs; simp [goodService])
    (by simp [badService])
  exact ⟨h.1, h.2 goodService (by simp) "orders" "prod" rfl rfl⟩

/-- C3 counterexample: a malformed service record (missing `namespace` key)
aborts the whole health pass: with services `[badService, goodService]` and
an empty health store, no health record is written at all — while
`goodService` alone would have received one. -/
theorem health_pass_aborts_counterexample :
    updateServiceHealth [] [] [] [badService, goodService] = []
    ∧ updateServiceHealth [] [] [] [goodService]
      = [⟨"orders", "prod", "unknown", "unknown", "unknown"⟩] := by
  constructor <;> rfl

end DevPortal
